import Mathlib

/-!
Verification of the `ecszap` encoder module (`encoder.go`).

The file shallowly embeds the encoding strategies of the module:
the caller encoders (`FullCallerEncoder`, `ShortCallerEncoder`, the shared
`encodeCaller` entry point and `caller.MarshalLogObject`), the configuration
selector (`CallerEncoder.UnmarshalText`), and the time encoders
(`EpochMicrosTimeEncoder`, `RFC3339TimeEncoder`, `RFC3339UTCTimeEncoder`).

Go strings are modelled as `List Char` (all characters the encoders inspect
are single-byte ASCII, so byte indices and character indices coincide on the
operations used here).  A Go slice expression with an out-of-range bound is a
runtime panic; fallible computations therefore return `Option`, with `none`
standing for a panic.  Sink interfaces (`zapcore.PrimitiveArrayEncoder`,
`zapcore.ArrayEncoder`, the optional `appendTimeEncoder` capability) are
modelled by an explicit capability flag together with a trace of the append
operations performed on the sink.
-/

/-- Go strings, as lists of characters. -/
abbrev GoStr := List Char

/-- Model of Go `strings.LastIndex(s, string(c))` for a single-character
needle: the index of the last occurrence of `c` in `s`, or `-1` if `c` does
not occur.  (`":"` is the only needle the source uses.) -/
def stringsLastIndex (s : GoStr) (c : Char) : Int :=
  match s with
  | [] => -1
  | a :: rest =>
    let r := stringsLastIndex rest c
    if 0 ≤ r then r + 1 else if a = c then 0 else -1

/-- Model of the Go slice expression `s[:i]` with an `int` bound `i`:
defined (as the first `i` characters) when `0 ≤ i ≤ len(s)`, and a runtime
panic (`none`) otherwise. -/
def goSliceTo (s : GoStr) (i : Int) : Option GoStr :=
  if 0 ≤ i ∧ i ≤ (s.length : Int) then some (s.take i.toNat) else none

/-- Call-site metadata handed to the caller encoders.  It corresponds to
`zapcore.EntryCaller` together with the result of its host-supplied
`TrimmedPath()` method: `function`, `file` and `line` are the `Function`,
`File` and `Line` fields, and `trimmedPath` is the value of `TrimmedPath()`,
which is computed by the zap dependency outside this module and is treated
here as an input attribute (as the specification's `CallerInfo` does). -/
structure CallerInfo where
  function : GoStr
  file : GoStr
  line : Int
  trimmedPath : GoStr
deriving Repr, DecidableEq

/-- A primitive field value written through a `zapcore.ObjectEncoder`:
the source writes strings (`AddString`) and integers (`AddInt`). -/
inductive FieldValue where
  | str (s : GoStr)
  | int (i : Int)
deriving Repr, DecidableEq

/-- The `caller` wrapper type of the source: the entry caller plus the
`fullPath` flag distinguishing the Full and Short variants. -/
structure caller where
  info : CallerInfo
  fullPath : Bool

/-- `caller.MarshalLogObject`: chooses the file name (the full `File` path
when `fullPath` is set, otherwise `TrimmedPath()` cut at the last `:` by the
slice `file[:strings.LastIndex(file, ":")]`), then adds the three fields
`function`, `file.name`, `file.line` in that order.  `none` models the Go
runtime panic that the slice expression raises when its bound is negative. -/
def caller.MarshalLogObject (c : caller) : Option (List (String × FieldValue)) :=
  (if c.fullPath then some c.info.file
   else goSliceTo c.info.trimmedPath (stringsLastIndex c.info.trimmedPath ':')).map
    fun file =>
      [("function", FieldValue.str c.info.function),
       ("file.name", FieldValue.str file),
       ("file.line", FieldValue.int c.info.line)]

/-- `encodeCaller`: if the supplied sink also implements
`zapcore.ArrayEncoder` (the `supportsObject` capability), append the caller
as one nested object via `AppendObject`; otherwise do nothing.  The result
is the list of objects appended to the sink, `none` standing for a panic
propagating out of `MarshalLogObject`. -/
def encodeCaller (c : caller) (supportsObject : Bool) :
    Option (List (List (String × FieldValue))) :=
  if supportsObject then (caller.MarshalLogObject c).map fun fields => [fields]
  else some []

/-- `FullCallerEncoder`: encode with the full file path. -/
def FullCallerEncoder (c : CallerInfo) (supportsObject : Bool) :
    Option (List (List (String × FieldValue))) :=
  encodeCaller ⟨c, true⟩ supportsObject

/-- `ShortCallerEncoder`: encode with the trimmed file path. -/
def ShortCallerEncoder (c : CallerInfo) (supportsObject : Bool) :
    Option (List (List (String × FieldValue))) :=
  encodeCaller ⟨c, false⟩ supportsObject

/-- The two caller-encoding strategies selectable by configuration. -/
inductive CallerEncoderVariant where
  | full
  | short
deriving Repr, DecidableEq

/-- `CallerEncoder.UnmarshalText`: the literal `"full"` selects
`FullCallerEncoder`, every other text selects `ShortCallerEncoder`, and the
method always returns a `nil` error (`Except.ok`). -/
def CallerEncoder.UnmarshalText (text : String) : Except String CallerEncoderVariant :=
  Except.ok (if text = "full" then CallerEncoderVariant.full else CallerEncoderVariant.short)

/-! ### Time model -/

/-- A Go `time.Time`, reduced to what the encoders observe: the instant
(Unix seconds `sec` plus `nsec` nanoseconds within the second; every value
the host constructs has `0 ≤ nsec < 10^9`) and the zone offset of its
location, in seconds east of UTC. -/
structure GoTime where
  sec : Int
  nsec : Nat
  offset : Int
deriving Repr, DecidableEq

/-- `time.Time.UnixNano()`: nanoseconds since the Unix epoch. -/
def GoTime.unixNano (t : GoTime) : Int :=
  t.sec * 1000000000 + t.nsec

/-- `t.In(time.UTC)`: the same instant with zone offset 0. -/
def GoTime.inUTC (t : GoTime) : GoTime :=
  { t with offset := 0 }

/-- Round a rational to an integer, nearest, ties to even. -/
def roundHalfEvenInt (x : ℚ) : ℤ :=
  let n := ⌊x⌋
  let fr : ℚ := x - (n : ℚ)
  if fr < 1 / 2 then n
  else if 1 / 2 < fr then n + 1
  else if n % 2 = 0 then n else n + 1

/-- IEEE-754 binary64 rounding (round to nearest, ties to even), modelled on
exact rational values: the result is the nearest rational with a 53-bit
significand.  The exponent is not clamped: no value arising in this
development comes anywhere near the overflow or subnormal thresholds of
binary64, which is where clamping would matter. -/
def roundB64 (q : ℚ) : ℚ :=
  if q = 0 then 0
  else
    let e : ℤ := Int.log 2 |q|
    let m : ℤ := roundHalfEvenInt (|q| * (2 : ℚ) ^ (52 - e))
    let v : ℚ := (m : ℚ) * (2 : ℚ) ^ (e - 52)
    if q < 0 then -v else v

/-- The Go conversion `float64(n)` of an integer value. -/
def float64OfInt (n : ℤ) : ℚ := roundB64 (n : ℚ)

/-- Go `float64` division: the correctly rounded exact quotient. -/
def float64Div (a b : ℚ) : ℚ := roundB64 (a / b)

/-- The operations the time encoders can perform on a
`zapcore.PrimitiveArrayEncoder` sink (plus the optional `AppendTimeLayout`
capability probed for by `RFC3339TimeEncoder`). -/
inductive PrimOp where
  | appendFloat64 (v : ℚ)
  | appendString (s : GoStr)
  | appendTimeLayout (t : GoTime) (layout : GoStr)
deriving Repr, DecidableEq

/-- `EpochMicrosTimeEncoder`: appends
`float64(t.UnixNano()) / float64(time.Microsecond)` (the `Duration`
constant `time.Microsecond` is 1000 nanoseconds) with `AppendFloat64`. -/
def EpochMicrosTimeEncoder (t : GoTime) : List PrimOp :=
  [PrimOp.appendFloat64 (float64Div (float64OfInt t.unixNano) (float64OfInt 1000))]

/-- The digit character `'0' + d`, as Go writes decimal digits. -/
def digitChar10 (d : Nat) : Char := Char.ofNat (48 + d)

/-- Fuel-driven helper for `decDigits` (structural recursion on the fuel
keeps the definition reducible by the kernel; any fuel above the value
itself is enough, see `decDigitsF_fuel_irrel`). -/
def decDigitsF : Nat → Nat → List Char
  | 0, _ => []
  | fuel + 1, n =>
    if n < 10 then [digitChar10 n] else decDigitsF fuel (n / 10) ++ [digitChar10 (n % 10)]

/-- The decimal digits of `n`, most significant first. -/
def decDigits (n : Nat) : List Char := decDigitsF (n + 1) n

/-- Go's `appendInt(b, x, width)`: an optional sign, then the decimal digits
zero-padded on the left up to `width`. -/
def goAppendInt (x : Int) (width : Nat) : GoStr :=
  let digits := decDigits x.natAbs
  (if x < 0 then ['-'] else []) ++ List.replicate (width - digits.length) '0' ++ digits

/-- Go's `formatNano` digits for the `.000` verb (`stdFrac0`, precision 3),
without the leading dot: the first three characters of the nine-digit
zero-padded decimal rendering of the nanosecond field. -/
def formatMillis (nsec : Nat) : GoStr :=
  (List.range 3).map fun i => digitChar10 (nsec / 10 ^ (8 - i) % 10)

/-- The 400-year era index of a day count (days since 1970-01-01, shifted
to the 0000-03-01 epoch of the civil-from-days algorithm). -/
def civilEra (z : Int) : Int := (z + 719468).ediv 146097

/-- Day-of-era in `[0, 146097)`. -/
def civilDoe (z : Int) : Nat := ((z + 719468).emod 146097).toNat

/-- Year-of-era in `[0, 400)` from the day-of-era. -/
def civilYoe (doe : Nat) : Nat :=
  (doe - doe / 1460 + doe / 36524 - doe / 146096) / 365

/-- Day-of-year (March-based, in `[0, 365]`) from the day-of-era. -/
def civilDoy (doe : Nat) : Nat :=
  doe - (365 * civilYoe doe + civilYoe doe / 4 - civilYoe doe / 100)

/-- March-based month index in `[0, 11]` from the day-of-era. -/
def civilMp (doe : Nat) : Nat := (5 * civilDoy doe + 2) / 153

/-- Days since 1970-01-01 to a proleptic-Gregorian `(year, month, day)`:
the standard civil-from-days conversion, extensionally the date computation
Go's `time` package performs when formatting. -/
def civilFromDays (z : Int) : Int × Nat × Nat :=
  let doe := civilDoe z
  let mp := civilMp doe
  let d := civilDoy doe - (153 * mp + 2) / 5 + 1
  let m := if mp < 10 then mp + 3 else mp - 9
  (civilEra z * 400 + civilYoe doe + (if m ≤ 2 then 1 else 0), m, d)

/-- The `Z07:00` (`stdISO8601ColonTZ`) verb: `Z` when the offset is zero,
otherwise a sign and `hh:mm` computed from `zone := offset / 60` minutes
(Go's integer division truncates toward zero, hence `Int.tdiv`). -/
def formatOffsetColon (offset : Int) : GoStr :=
  if offset = 0 then ['Z']
  else
    let zone := offset.tdiv 60
    (if zone < 0 then ['-'] else ['+']) ++
      goAppendInt (zone.natAbs / 60) 2 ++ [':'] ++ goAppendInt (zone.natAbs % 60) 2

/-- The layout constant `rfc3339millis` of the source. -/
def rfc3339MillisLayout : GoStr := "2006-01-02T15:04:05.000Z07:00".toList

/-- Go `t.Format(rfc3339millis)` (equally `t.AppendFormat`, which `Format`
and the zapcore sinks' `AppendTimeLayout` both call).  The Go standard
library is a dependency outside this repository; this definition models its
documented formatting behaviour at this one fixed layout: the zero-padded
civil fields of the zone-local time, a dot followed by exactly the first
three nanosecond digits, and the ISO-8601 colon timezone. -/
def rfc3339MillisFormat (t : GoTime) : GoStr :=
  let loc := t.sec + t.offset
  let tod := (loc.emod 86400).toNat
  let ymd := civilFromDays (loc.ediv 86400)
  goAppendInt ymd.1 4 ++ ['-'] ++ goAppendInt (ymd.2.1 : Int) 2 ++ ['-'] ++
    goAppendInt (ymd.2.2 : Int) 2 ++ ['T'] ++ goAppendInt (tod / 3600) 2 ++ [':'] ++
    goAppendInt (tod % 3600 / 60) 2 ++ [':'] ++ goAppendInt (tod % 60) 2 ++
    ['.'] ++ formatMillis t.nsec ++ formatOffsetColon t.offset

/-- `RFC3339TimeEncoder`: uses the sink's optional `AppendTimeLayout`
capability when present, otherwise appends the pre-formatted string. -/
def RFC3339TimeEncoder (t : GoTime) (hasAppendTimeLayout : Bool) : List PrimOp :=
  if hasAppendTimeLayout then [PrimOp.appendTimeLayout t rfc3339MillisLayout]
  else [PrimOp.appendString (rfc3339MillisFormat t)]

/-- `RFC3339UTCTimeEncoder`: `RFC3339TimeEncoder(t.In(time.UTC), enc)`. -/
def RFC3339UTCTimeEncoder (t : GoTime) (hasAppendTimeLayout : Bool) : List PrimOp :=
  RFC3339TimeEncoder t.inUTC hasAppendTimeLayout

/-- The characters an operation contributes to the serialized record:
`AppendString` contributes its argument, and `AppendTimeLayout` formats the
time with the given layout (the zapcore sinks implement it with the same Go
routine `Format` wraps; it is modelled at the one layout this source
passes).  The decimal rendering of a float is performed by the host sink
and no claim here depends on it, so it contributes no characters. -/
def primOpBytes : PrimOp → GoStr
  | PrimOp.appendFloat64 _ => []
  | PrimOp.appendString s => s
  | PrimOp.appendTimeLayout t layout =>
    if layout = rfc3339MillisLayout then rfc3339MillisFormat t else []

/-- All characters a sequence of sink operations writes. -/
def sinkBytes (ops : List PrimOp) : GoStr :=
  (ops.map primOpBytes).flatten

/-! ### Lemmas about `stringsLastIndex` -/

theorem stringsLastIndex_of_not_mem {s : GoStr} {c : Char} (h : c ∉ s) :
    stringsLastIndex s c = -1 := by
  induction s with
  | nil => rfl
  | cons a rest ih =>
    have ha : ¬a = c := fun hac => h (hac ▸ List.mem_cons_self a rest)
    have hr : c ∉ rest := fun hm => h (List.mem_cons_of_mem a hm)
    simp [stringsLastIndex, ih hr, ha]

theorem stringsLastIndex_append_colon (pre suf : GoStr) (c : Char) (hs : c ∉ suf) :
    stringsLastIndex (pre ++ c :: suf) c = (pre.length : Int) := by
  induction pre with
  | nil =>
    simp only [List.nil_append, stringsLastIndex, stringsLastIndex_of_not_mem hs]
    norm_num
  | cons a pre ih =>
    simp only [List.cons_append, stringsLastIndex, ih]
    have h0 : (0 : Int) ≤ (pre.length : Int) := Int.ofNat_nonneg _
    simp [h0, List.length_cons]
    omega

/-- Every list containing `c` splits around the last occurrence of `c`. -/
theorem exists_split_at_last_occ {c : Char} :
    ∀ {s : GoStr}, c ∈ s → ∃ pre suf, s = pre ++ c :: suf ∧ c ∉ suf := by
  intro s hs
  induction s with
  | nil => cases hs
  | cons a rest ih =>
    by_cases hr : c ∈ rest
    · obtain ⟨pre, suf, heq, hns⟩ := ih hr
      exact ⟨a :: pre, suf, by rw [heq]; rfl, hns⟩
    · have ha : a = c := by
        rcases List.mem_cons.mp hs with h | h
        · exact h.symm
        · exact absurd h hr
      exact ⟨[], rest, by simp [ha], hr⟩

/-- The Short-variant file name computation, on a trimmed path that does
contain a colon, keeps exactly the part before the last colon. -/
theorem MarshalLogObject_short_eq (c : CallerInfo) (pre suf : GoStr)
    (heq : c.trimmedPath = pre ++ ':' :: suf) (hs : ':' ∉ suf) :
    caller.MarshalLogObject ⟨c, false⟩ =
      some [("function", FieldValue.str c.function),
            ("file.name", FieldValue.str pre),
            ("file.line", FieldValue.int c.line)] := by
  have hidx : stringsLastIndex c.trimmedPath ':' = (pre.length : Int) := by
    rw [heq]; exact stringsLastIndex_append_colon pre suf ':' hs
  have hlen : (pre.length : Int) ≤ (c.trimmedPath.length : Int) := by
    rw [heq]; simp [List.length_append]; omega
  have htake : c.trimmedPath.take pre.length = pre := by
    rw [heq]; exact List.take_left pre (':' :: suf)
  have hslice : goSliceTo c.trimmedPath (stringsLastIndex c.trimmedPath ':') = some pre := by
    rw [hidx]
    unfold goSliceTo
    rw [if_pos ⟨Int.ofNat_nonneg _, hlen⟩]
    simp [htake]
  simp [caller.MarshalLogObject, hslice]

/-! ### Claims about the caller encoders and the configuration selector -/

/-- C2: for every CallerInfo whose trimmedPath ends in `:<line>` (contains at
least one `:`), the Short-variant caller encoder sets `file.name` to the
trimmed path with the substring from the last `:` onward removed, and the
operation never fails. -/
theorem short_caller_strips_last_colon (c : CallerInfo) (h : ':' ∈ c.trimmedPath) :
    ∃ pre suf, c.trimmedPath = pre ++ ':' :: suf ∧ ':' ∉ suf ∧
      ShortCallerEncoder c true =
        some [[("function", FieldValue.str c.function),
               ("file.name", FieldValue.str pre),
               ("file.line", FieldValue.int c.line)]] := by
  obtain ⟨pre, suf, heq, hns⟩ := exists_split_at_last_occ h
  refine ⟨pre, suf, heq, hns, ?_⟩
  simp [ShortCallerEncoder, encodeCaller, MarshalLogObject_short_eq c pre suf heq hns]

theorem short_caller_strips_last_colon_witness :
    ':' ∈ "app/main.go:42".toList ∧
    (∃ pre suf, ("app/main.go:42".toList : GoStr) = pre ++ ':' :: suf ∧ ':' ∉ suf ∧
      ShortCallerEncoder
          ⟨"main.Run".toList, "/src/app/main.go".toList, 42, "app/main.go:42".toList⟩ true =
        some [[("function", FieldValue.str "main.Run".toList),
               ("file.name", FieldValue.str pre),
               ("file.line", FieldValue.int 42)]]) :=
  ⟨by decide, short_caller_strips_last_colon
    ⟨"main.Run".toList, "/src/app/main.go".toList, 42, "app/main.go:42".toList⟩ (by decide)⟩

/-- C1 counterexample: on a trimmed path containing no `:` (for instance
`"undefined"`, the value `TrimmedPath()` yields for an undefined caller), the
Short-variant encoder panics (`none`); it does not emit the unchanged
string. -/
theorem short_caller_no_colon_counterexample :
    ShortCallerEncoder
        ⟨"main.Run".toList, "/src/app/main.go".toList, 42, "undefined".toList⟩ true = none ∧
    ShortCallerEncoder
        ⟨"main.Run".toList, "/src/app/main.go".toList, 42, "undefined".toList⟩ true ≠
      some [[("function", FieldValue.str "main.Run".toList),
             ("file.name", FieldValue.str "undefined".toList),
             ("file.line", FieldValue.int 42)]] := by
  constructor <;> decide

/-- C1 (amended): for every CallerInfo whose trimmedPath contains no `:`,
the Short-variant caller encoder fails with a runtime panic — the slice
bound `strings.LastIndex` returns is `-1` — and emits nothing, rather than
using the string unchanged. -/
theorem short_caller_no_colon_panics (c : CallerInfo) (h : ':' ∉ c.trimmedPath) :
    ShortCallerEncoder c true = none := by
  simp [ShortCallerEncoder, encodeCaller, caller.MarshalLogObject, goSliceTo,
        stringsLastIndex_of_not_mem h]

theorem short_caller_no_colon_panics_witness :
    ':' ∉ "undefined".toList ∧
    ShortCallerEncoder
        ⟨"main.Run".toList, "/src/app/main.go".toList, 42, "undefined".toList⟩ true = none :=
  ⟨by decide, short_caller_no_colon_panics
    ⟨"main.Run".toList, "/src/app/main.go".toList, 42, "undefined".toList⟩ (by decide)⟩

/-- C3: the configuration selector selects the Full variant iff the text
case-sensitively equals `"full"`, selects the Short variant for every other
input, and always returns without error. -/
theorem unmarshalText_full_iff (text : String) :
    CallerEncoder.UnmarshalText text =
      Except.ok (if text = "full" then CallerEncoderVariant.full
                 else CallerEncoderVariant.short) ∧
    (CallerEncoder.UnmarshalText text = Except.ok CallerEncoderVariant.full ↔ text = "full") := by
  refine ⟨rfl, ?_⟩
  by_cases h : text = "full" <;> simp [CallerEncoder.UnmarshalText, h]

theorem unmarshalText_full_iff_witness :
    CallerEncoder.UnmarshalText "full" = Except.ok CallerEncoderVariant.full ∧
    CallerEncoder.UnmarshalText "" = Except.ok CallerEncoderVariant.short ∧
    CallerEncoder.UnmarshalText "short" = Except.ok CallerEncoderVariant.short ∧
    CallerEncoder.UnmarshalText "FULL" = Except.ok CallerEncoderVariant.short ∧
    CallerEncoder.UnmarshalText "xyz" = Except.ok CallerEncoderVariant.short :=
  ⟨(unmarshalText_full_iff "full").2.mpr rfl,
   (unmarshalText_full_iff "").1.trans (congrArg Except.ok (by decide)),
   (unmarshalText_full_iff "short").1.trans (congrArg Except.ok (by decide)),
   (unmarshalText_full_iff "FULL").1.trans (congrArg Except.ok (by decide)),
   (unmarshalText_full_iff "xyz").1.trans (congrArg Except.ok (by decide))⟩

/-- C4: both variants emit exactly three fields, in the fixed order
`function`, `file.name`, `file.line`, with `function = CallerInfo.function`
and `file.line = CallerInfo.line`; the Full variant's `file.name` is
`CallerInfo.file` verbatim.  (The Short variant is stated under the
well-formedness invariant of CallerInfo — the trimmed path carrying its
`:<line>` suffix.) -/
theorem caller_encoders_emit_three_fields (c : CallerInfo) :
    FullCallerEncoder c true =
      some [[("function", FieldValue.str c.function),
             ("file.name", FieldValue.str c.file),
             ("file.line", FieldValue.int c.line)]] ∧
    (':' ∈ c.trimmedPath → ∃ name,
      ShortCallerEncoder c true =
        some [[("function", FieldValue.str c.function),
               ("file.name", FieldValue.str name),
               ("file.line", FieldValue.int c.line)]]) := by
  constructor
  · simp [FullCallerEncoder, encodeCaller, caller.MarshalLogObject]
  · intro h
    obtain ⟨pre, suf, heq, hns⟩ := exists_split_at_last_occ h
    exact ⟨pre, by
      simp [ShortCallerEncoder, encodeCaller, MarshalLogObject_short_eq c pre suf heq hns]⟩

theorem caller_encoders_emit_three_fields_witness :
    FullCallerEncoder
        ⟨"main.Run".toList, "/src/app/main.go".toList, 42, "app/main.go:42".toList⟩ true =
      some [[("function", FieldValue.str "main.Run".toList),
             ("file.name", FieldValue.str "/src/app/main.go".toList),
             ("file.line", FieldValue.int 42)]] ∧
    (∃ name,
      ShortCallerEncoder
          ⟨"main.Run".toList, "/src/app/main.go".toList, 42, "app/main.go:42".toList⟩ true =
        some [[("function", FieldValue.str "main.Run".toList),
               ("file.name", FieldValue.str name),
               ("file.line", FieldValue.int 42)]]) :=
  ⟨(caller_encoders_emit_three_fields
      ⟨"main.Run".toList, "/src/app/main.go".toList, 42, "app/main.go:42".toList⟩).1,
   (caller_encoders_emit_three_fields
      ⟨"main.Run".toList, "/src/app/main.go".toList, 42, "app/main.go:42".toList⟩).2 (by decide)⟩

/-- C5: caller encoding invoked with a sink lacking the nested-object
capability writes nothing and returns successfully, for both variants and
every CallerInfo. -/
theorem caller_encoding_noop_without_object_capability (c : CallerInfo) :
    FullCallerEncoder c false = some [] ∧ ShortCallerEncoder c false = some [] :=
  ⟨rfl, rfl⟩

/-- C10: the Full and Short variants emit identical `function` and
`file.line` fields and can differ only in the `file.name` value (stated
under the well-formedness invariant of CallerInfo — the trimmed path
carrying its `:<line>` suffix). -/
theorem caller_variants_agree_except_file_name (c : CallerInfo) (h : ':' ∈ c.trimmedPath) :
    ∃ fullName shortName,
      FullCallerEncoder c true =
        some [[("function", FieldValue.str c.function),
               ("file.name", FieldValue.str fullName),
               ("file.line", FieldValue.int c.line)]] ∧
      ShortCallerEncoder c true =
        some [[("function", FieldValue.str c.function),
               ("file.name", FieldValue.str shortName),
               ("file.line", FieldValue.int c.line)]] := by
  obtain ⟨pre, suf, heq, hns⟩ := exists_split_at_last_occ h
  refine ⟨c.file, pre, by simp [FullCallerEncoder, encodeCaller, caller.MarshalLogObject], ?_⟩
  simp [ShortCallerEncoder, encodeCaller, MarshalLogObject_short_eq c pre suf heq hns]

theorem caller_variants_agree_except_file_name_witness :
    ':' ∈ "app/main.go:42".toList ∧
    (∃ fullName shortName,
      FullCallerEncoder
          ⟨"main.Run".toList, "/src/app/main.go".toList, 42, "app/main.go:42".toList⟩ true =
        some [[("function", FieldValue.str "main.Run".toList),
               ("file.name", FieldValue.str fullName),
               ("file.line", FieldValue.int 42)]] ∧
      ShortCallerEncoder
          ⟨"main.Run".toList, "/src/app/main.go".toList, 42, "app/main.go:42".toList⟩ true =
        some [[("function", FieldValue.str "main.Run".toList),
               ("file.name", FieldValue.str shortName),
               ("file.line", FieldValue.int 42)]]) :=
  ⟨by decide, caller_variants_agree_except_file_name
    ⟨"main.Run".toList, "/src/app/main.go".toList, 42, "app/main.go:42".toList⟩ (by decide)⟩

/-! ### Lemmas about decimal digits and binary64 rounding -/

theorem decDigitsF_fuel_irrel :
    ∀ (f₁ f₂ n : Nat), n < f₁ → n < f₂ → decDigitsF f₁ n = decDigitsF f₂ n := by
  intro f₁
  induction f₁ with
  | zero => intro f₂ n h1 _; omega
  | succ f₁ ih =>
    intro f₂ n h1 h2
    cases f₂ with
    | zero => omega
    | succ f₂ =>
      by_cases hn : n < 10
      · simp [decDigitsF, hn]
      · have hdiv : n / 10 < n := Nat.div_lt_self (by omega) (by omega)
        simp only [decDigitsF, if_neg hn]
        rw [ih f₂ (n / 10) (by omega) (by omega)]

theorem decDigits_eq (n : Nat) :
    decDigits n =
      if n < 10 then [digitChar10 n] else decDigits (n / 10) ++ [digitChar10 (n % 10)] := by
  by_cases hn : n < 10
  · simp [decDigits, decDigitsF, hn]
  · have hdiv : n / 10 < n := Nat.div_lt_self (by omega) (by omega)
    rw [if_neg hn]
    have lhs : decDigits n = decDigitsF n (n / 10) ++ [digitChar10 (n % 10)] := by
      show decDigitsF (n + 1) n = _
      simp only [decDigitsF, if_neg hn]
    rw [lhs, decDigitsF_fuel_irrel n (n / 10 + 1) (n / 10) (by omega) (by omega)]
    rfl

theorem decDigits_length_le : ∀ (k n : Nat), n < 10 ^ (k + 1) → (decDigits n).length ≤ k + 1 := by
  intro k
  induction k with
  | zero =>
    intro n hn
    have h10 : n < 10 := by simpa using hn
    simp [decDigits_eq n, h10]
  | succ k ih =>
    intro n hn
    rw [decDigits_eq n]
    by_cases hn10 : n < 10
    · simp [hn10]
    · have hlt : n / 10 < 10 ^ (k + 1) := by
        rw [Nat.div_lt_iff_lt_mul (by omega)]
        calc n < 10 ^ (k + 2) := hn
          _ = 10 ^ (k + 1) * 10 := by ring
      have hrec := ih (n / 10) hlt
      simp only [if_neg hn10, List.length_append, List.length_singleton]
      omega

theorem decDigits_length_pos (n : Nat) : 1 ≤ (decDigits n).length := by
  rw [decDigits_eq n]
  by_cases h10 : n < 10 <;> simp [h10]

/-- For a non-negative value fitting in `width` digits, `appendInt` produces
exactly `width` characters. -/
theorem goAppendInt_length (x : Int) (w : Nat) (hx : 0 ≤ x) (hw : 1 ≤ w)
    (h : x < 10 ^ w) : (goAppendInt x w).length = w := by
  obtain ⟨w', rfl⟩ : ∃ w', w = w' + 1 := ⟨w - 1, by omega⟩
  have hna : x.natAbs < 10 ^ (w' + 1) := by
    zify
    rwa [abs_of_nonneg hx]
  have hlen : (decDigits x.natAbs).length ≤ w' + 1 := decDigits_length_le w' x.natAbs hna
  have hneg : ¬x < 0 := not_lt.mpr hx
  simp only [goAppendInt, if_neg hneg, List.nil_append, List.length_append,
    List.length_replicate]
  omega

theorem roundHalfEvenInt_intCast (m : ℤ) : roundHalfEvenInt (m : ℚ) = m := by
  simp only [roundHalfEvenInt, Int.floor_intCast, sub_self]
  norm_num

/-- binary64 rounding is exact on integers below `2^53`. -/
theorem roundB64_intCast {n : ℤ} (h : |n| < 2 ^ 53) : roundB64 (n : ℚ) = (n : ℚ) := by
  by_cases h0 : n = 0
  · simp [h0, roundB64]
  · have hq0 : (n : ℚ) ≠ 0 := Int.cast_ne_zero.mpr h0
    simp only [roundB64, if_neg hq0]
    set e := Int.log 2 |(n : ℚ)| with he
    have habs : ((|n| : ℤ) : ℚ) = |(n : ℚ)| := by push_cast; ring
    have h1 : (1 : ℚ) ≤ |(n : ℚ)| := by
      rw [← habs]; exact_mod_cast Int.one_le_abs h0
    have he0 : 0 ≤ e := by
      rw [he, Int.log_of_one_le_right _ h1]; exact Int.natCast_nonneg _
    have hlt53 : |(n : ℚ)| < (2 : ℚ) ^ (53 : ℤ) := by
      rw [← habs]
      calc ((|n| : ℤ) : ℚ) < ((2 ^ 53 : ℤ) : ℚ) := by exact_mod_cast h
        _ = (2 : ℚ) ^ (53 : ℤ) := by push_cast; norm_num
    have he52 : e ≤ 52 := by
      by_contra hc
      push_neg at hc
      have h2e : ((2 : ℚ) ^ (53 : ℤ)) ≤ (2 : ℚ) ^ e :=
        zpow_le_zpow_right₀ (by norm_num) (by omega)
      have hle : ((2 : ℕ) : ℚ) ^ e ≤ |(n : ℚ)| :=
        Int.zpow_log_le_self (by norm_num) (abs_pos.mpr hq0)
      push_cast at hle
      linarith
    have hpow : (2 : ℚ) ^ (52 - e) = ((2 ^ (52 - e).toNat : ℤ) : ℚ) := by
      have h52 : (2 : ℚ) ^ (52 - e) = (2 : ℚ) ^ (((52 - e).toNat : ℕ) : ℤ) := by
        rw [Int.toNat_of_nonneg (by omega : (0 : ℤ) ≤ 52 - e)]
      rw [h52, zpow_natCast]
      push_cast
      ring
    have hscaled : |(n : ℚ)| * (2 : ℚ) ^ (52 - e) = ((|n| * 2 ^ (52 - e).toNat : ℤ) : ℚ) := by
      rw [← habs, hpow]; push_cast; ring
    rw [hscaled, roundHalfEvenInt_intCast]
    have hcancel : (2 : ℚ) ^ (52 - e) * (2 : ℚ) ^ (e - 52) = 1 := by
      rw [← zpow_add₀ (two_ne_zero (α := ℚ))]
      norm_num
    have hv : ((|n| * 2 ^ (52 - e).toNat : ℤ) : ℚ) * (2 : ℚ) ^ (e - 52) = |(n : ℚ)| := by
      rw [← hscaled, mul_assoc, hcancel, mul_one]
    rw [hv]
    by_cases hneg : (n : ℚ) < 0
    · rw [if_pos hneg, abs_of_neg hneg, neg_neg]
    · rw [if_neg hneg, abs_of_nonneg (not_lt.mp hneg)]

/-! ### Claims about the time encoders -/

/-- C6: for every timestamp and every sink, the UTC fixed-format encoder
produces exactly the output of the fixed-format encoder applied to the
timestamp normalized to zero offset. -/
theorem rfc3339UTC_eq_encoder_of_normalized (t : GoTime) (cap : Bool) :
    RFC3339UTCTimeEncoder t cap = RFC3339TimeEncoder ⟨t.sec, t.nsec, 0⟩ cap := rfl

/-- C7: the microsecond-epoch encoder appends exactly one value — the
64-bit float obtained by dividing the (float64-converted) nanosecond count
by 1000, with the division's single standard rounding — and never fails;
whenever the nanosecond count is itself exactly representable (below
`2^53`), the value is exactly the correctly rounded rational
`UnixNano(t) / 1000`. -/
theorem epochMicros_single_float_division (t : GoTime) :
    EpochMicrosTimeEncoder t =
      [PrimOp.appendFloat64 (roundB64 (float64OfInt t.unixNano / 1000))] ∧
    (|t.unixNano| < 2 ^ 53 →
      EpochMicrosTimeEncoder t =
        [PrimOp.appendFloat64 (roundB64 ((t.unixNano : ℚ) / 1000))]) := by
  have h1000 : float64OfInt 1000 = 1000 := roundB64_intCast (by norm_num)
  constructor
  · simp [EpochMicrosTimeEncoder, float64Div, h1000]
  · intro hsmall
    have hexact : float64OfInt t.unixNano = (t.unixNano : ℚ) := roundB64_intCast hsmall
    simp [EpochMicrosTimeEncoder, float64Div, h1000, hexact]

theorem epochMicros_single_float_division_witness :
    |(GoTime.mk 1 500000 0).unixNano| < 2 ^ 53 ∧
    EpochMicrosTimeEncoder ⟨1, 500000, 0⟩ =
      [PrimOp.appendFloat64 (roundB64 ((1000500000 : ℚ) / 1000))] :=
  ⟨by decide, (epochMicros_single_float_division ⟨1, 500000, 0⟩).2 (by decide)⟩

/-! ### Bounds for the civil-date computation and the offset rendering -/

theorem civilDoe_lt (z : Int) : civilDoe z < 146097 := by
  unfold civilDoe
  have h1 : 0 ≤ (z + 719468).emod 146097 := Int.emod_nonneg _ (by norm_num)
  have h2 : (z + 719468).emod 146097 < 146097 := Int.emod_lt_of_pos _ (by norm_num)
  omega

/-- A coarse linear bound on the day-of-year; the true range is `[0, 365]`,
but a linear relaxation suffices for the width arguments below. -/
theorem civilDoy_le_464 (a : Nat) (ha : a < 146097) : civilDoy a ≤ 464 := by
  unfold civilDoy civilYoe
  omega

theorem civilFromDays_month_bounds (z : Int) :
    1 ≤ (civilFromDays z).2.1 ∧ (civilFromDays z).2.1 < 100 := by
  have hdoy := civilDoy_le_464 (civilDoe z) (civilDoe_lt z)
  unfold civilFromDays civilMp
  dsimp only
  split <;> omega

theorem civilFromDays_day_bounds (z : Int) :
    1 ≤ (civilFromDays z).2.2 ∧ (civilFromDays z).2.2 ≤ 31 := by
  unfold civilFromDays civilMp
  dsimp only
  omega

theorem digitChar10_isDigit {d : Nat} (h : d < 10) : (digitChar10 d).isDigit := by
  interval_cases d <;> decide

/-- Two-character width of `appendInt` on values below 100. -/
theorem goAppendInt_natCast_length_two (v : Nat) (h : v < 100) :
    (goAppendInt (v : Int) 2).length = 2 :=
  goAppendInt_length _ 2 (Int.natCast_nonneg v) (by norm_num) (by exact_mod_cast h)

/-- Shape of the `Z07:00` rendering for a non-zero offset below 100 hours. -/
theorem formatOffsetColon_shape (off : Int) (hne : off ≠ 0) (hb : off.natAbs < 360000) :
    ∃ sgn hh mm, formatOffsetColon off = sgn ++ hh ++ [':'] ++ mm ∧
      (sgn = ['+'] ∨ sgn = ['-']) ∧ hh.length = 2 ∧ mm.length = 2 := by
  have hna : (off.tdiv 60).natAbs = off.natAbs / 60 := by
    simp only [Int.natAbs_tdiv]
    rfl
  have hh2 : (goAppendInt ((off.tdiv 60).natAbs / 60 : Nat) 2).length = 2 := by
    apply goAppendInt_natCast_length_two
    rw [hna]
    omega
  have hm2 : (goAppendInt ((off.tdiv 60).natAbs % 60 : Nat) 2).length = 2 := by
    apply goAppendInt_natCast_length_two
    omega
  unfold formatOffsetColon
  rw [if_neg hne]
  dsimp only
  by_cases hz : off.tdiv 60 < 0
  · rw [if_pos hz]
    exact ⟨['-'], _, _, rfl, Or.inr rfl, hh2, hm2⟩
  · rw [if_neg hz]
    exact ⟨['+'], _, _, rfl, Or.inl rfl, hh2, hm2⟩

/-- C8: for every timestamp the fixed-format string carries exactly three
fractional-second digits — never more, never fewer — in the pattern
`YYYY-MM-DDTHH:mm:ss.sss`, followed by `Z` when the offset is zero and by an
explicit numeric `±HH:MM` offset otherwise (the year group is four
characters for years in `[0, 9999]`; the offset group shape is shown for
offsets below 100 hours, which covers every offset a Go location can
carry). -/
theorem rfc3339_format_three_fraction_digits (t : GoTime) :
    ∃ y mo d hh mi ss ms off,
      rfc3339MillisFormat t =
        y ++ ['-'] ++ mo ++ ['-'] ++ d ++ ['T'] ++ hh ++ [':'] ++ mi ++ [':'] ++ ss ++
          ['.'] ++ ms ++ off ∧
      ms.length = 3 ∧
      (∀ ch ∈ ms, ch.isDigit) ∧
      mo.length = 2 ∧ d.length = 2 ∧ hh.length = 2 ∧ mi.length = 2 ∧ ss.length = 2 ∧
      (0 ≤ (civilFromDays ((t.sec + t.offset).ediv 86400)).1 ∧
          (civilFromDays ((t.sec + t.offset).ediv 86400)).1 < 10000 → y.length = 4) ∧
      (t.offset = 0 → off = ['Z']) ∧
      (t.offset ≠ 0 → t.offset.natAbs < 360000 →
        ∃ sgn ohh omm, off = sgn ++ ohh ++ [':'] ++ omm ∧
          (sgn = ['+'] ∨ sgn = ['-']) ∧ ohh.length = 2 ∧ omm.length = 2) := by
  have htod : ((t.sec + t.offset).emod 86400).toNat < 86400 := by
    have h1 : 0 ≤ (t.sec + t.offset).emod 86400 := Int.emod_nonneg _ (by norm_num)
    have h2 : (t.sec + t.offset).emod 86400 < 86400 := Int.emod_lt_of_pos _ (by norm_num)
    omega
  have hmo := civilFromDays_month_bounds ((t.sec + t.offset).ediv 86400)
  have hd := civilFromDays_day_bounds ((t.sec + t.offset).ediv 86400)
  refine ⟨goAppendInt (civilFromDays ((t.sec + t.offset).ediv 86400)).1 4,
    goAppendInt ((civilFromDays ((t.sec + t.offset).ediv 86400)).2.1 : Int) 2,
    goAppendInt ((civilFromDays ((t.sec + t.offset).ediv 86400)).2.2 : Int) 2,
    goAppendInt ((((t.sec + t.offset).emod 86400).toNat / 3600 : Nat) : Int) 2,
    goAppendInt ((((t.sec + t.offset).emod 86400).toNat % 3600 / 60 : Nat) : Int) 2,
    goAppendInt ((((t.sec + t.offset).emod 86400).toNat % 60 : Nat) : Int) 2,
    formatMillis t.nsec, formatOffsetColon t.offset,
    rfl, by simp [formatMillis], ?_, ?_, ?_, ?_, ?_, ?_, ?_, ?_, ?_⟩
  · intro ch hch
    simp only [formatMillis, List.mem_map, List.mem_range] at hch
    obtain ⟨i, _, rfl⟩ := hch
    exact digitChar10_isDigit (Nat.mod_lt _ (by norm_num))
  · exact goAppendInt_natCast_length_two _ (by omega)
  · exact goAppendInt_natCast_length_two _ (by omega)
  · exact goAppendInt_natCast_length_two _ (by omega)
  · exact goAppendInt_natCast_length_two _ (by omega)
  · exact goAppendInt_natCast_length_two _ (by omega)
  · intro hy
    exact goAppendInt_length _ 4 hy.1 (by norm_num)
      (by rw [show (10 : ℤ) ^ 4 = 10000 from by norm_num]; exact hy.2)
  · intro h0
    simp [formatOffsetColon, h0]
  · exact fun hne hb => formatOffsetColon_shape t.offset hne hb

theorem rfc3339_format_three_fraction_digits_witness :
    (∃ y mo d hh mi ss ms off,
      rfc3339MillisFormat ⟨1619863200, 123456000, -12600⟩ =
        y ++ ['-'] ++ mo ++ ['-'] ++ d ++ ['T'] ++ hh ++ [':'] ++ mi ++ [':'] ++ ss ++
          ['.'] ++ ms ++ off ∧
      ms.length = 3 ∧
      (∀ ch ∈ ms, ch.isDigit) ∧
      mo.length = 2 ∧ d.length = 2 ∧ hh.length = 2 ∧ mi.length = 2 ∧ ss.length = 2 ∧
      (0 ≤ (civilFromDays ((1619863200 + -12600 : Int).ediv 86400)).1 ∧
          (civilFromDays ((1619863200 + -12600 : Int).ediv 86400)).1 < 10000 →
          y.length = 4) ∧
      ((-12600 : Int) = 0 → off = ['Z']) ∧
      ((-12600 : Int) ≠ 0 → (-12600 : Int).natAbs < 360000 →
        ∃ sgn ohh omm, off = sgn ++ ohh ++ [':'] ++ omm ∧
          (sgn = ['+'] ∨ sgn = ['-']) ∧ ohh.length = 2 ∧ omm.length = 2)) ∧
    rfc3339MillisFormat ⟨1619863200, 123456000, 0⟩ = "2021-05-01T10:00:00.123Z".toList ∧
    rfc3339MillisFormat ⟨1619863200, 123456000, -12600⟩ =
      "2021-05-01T06:30:00.123-03:30".toList :=
  ⟨rfc3339_format_three_fraction_digits ⟨1619863200, 123456000, -12600⟩,
   by decide, by decide⟩

/-- C9: the fast path (a sink exposing `AppendTimeLayout`) and the fallback
path (formatting a string and appending it) of the fixed-format encoder
write byte-identical output for the same timestamp. -/
theorem rfc3339_fast_fallback_byte_identical (t : GoTime) :
    sinkBytes (RFC3339TimeEncoder t true) = sinkBytes (RFC3339TimeEncoder t false) := by
  simp [RFC3339TimeEncoder, sinkBytes, primOpBytes]
